import Mathlib

/-!
Verification of `neosr/archs/arch_util.py`.

This file gives a shallow embedding of the functions of `arch_util.py` that
the specification talks about, and proves or refutes the specified
properties against that embedding.

Conventions:
* Python dictionaries (keyword-argument mappings) are embedded as
  association lists `List (String × V)` with a first-match lookup; the
  decorated classes' parameter values are an arbitrary type `V` with
  decidable equality.
* Tensor values are embedded with exact rational arithmetic (`ℚ`); the
  ambient random source is passed in explicitly as an oracle argument.
* Fallible Python code (raised exceptions, failed asserts) is embedded
  with `Except`/`Option` results.
-/

/-! ## Dictionaries (Python `dict` as association lists) -/

/-- Association-list dictionary: the embedding of a Python `dict`
(`Mapping`).  Entries are listed in insertion order; a well-formed dict has
no duplicate keys (`Nodup` on the mapped keys). -/
abbrev Dict (V : Type) := List (String × V)

/-- Lookup of a key, first match wins (the embedding of `d[k]` /
`k in d`). -/
def dlookup {V : Type} : Dict V → String → Option V
  | [], _ => none
  | p :: rest, key => if p.1 = key then some p.2 else dlookup rest key

/-- Key-membership test (the embedding of `k in d`). -/
def hasKey {V : Type} (d : Dict V) (key : String) : Bool :=
  (dlookup d key).isSome

/-- Removal of a key (the embedding of `del d[k]`; on a well-formed dict
exactly one entry carries the key). -/
def derase {V : Type} : Dict V → String → Dict V
  | [], _ => []
  | p :: rest, key => if p.1 = key then derase rest key else p :: derase rest key

/-- Dictionary merge, later entries override earlier ones on key collision
(the embedding of the Python merge `\x7b**a, **b\x7d`): the entries of `a`
whose key does not occur in `b`, followed by the entries of `b`. -/
def dmerge {V : Type} : Dict V → Dict V → Dict V
  | [], b => b
  | p :: rest, b => if hasKey b p.1 then dmerge rest b else p :: dmerge rest b

theorem dlookup_derase {V : Type} (d : Dict V) (k k' : String) :
    dlookup (derase d k) k' = if k' = k then none else dlookup d k' := by
  by_cases h2 : k' = k
  · subst h2
    rw [if_pos rfl]
    induction d with
    | nil => rfl
    | cons p rest ih =>
      by_cases h1 : p.1 = k'
      · rw [derase, if_pos h1]; exact ih
      · rw [derase, if_neg h1, dlookup, if_neg h1]; exact ih
  · rw [if_neg h2]
    induction d with
    | nil => rfl
    | cons p rest ih =>
      by_cases h1 : p.1 = k
      · rw [derase, if_pos h1, dlookup, if_neg (fun he => h2 (by rw [← he, h1]))]
        exact ih
      · rw [derase, if_neg h1, dlookup, dlookup]
        by_cases h3 : p.1 = k'
        · rw [if_pos h3, if_pos h3]
        · rw [if_neg h3, if_neg h3]; exact ih

theorem derase_of_dlookup_none {V : Type} {d : Dict V} {k : String}
    (h : dlookup d k = none) : derase d k = d := by
  induction d with
  | nil => rfl
  | cons p rest ih =>
    simp only [dlookup] at h
    by_cases h1 : p.1 = k
    · simp [h1] at h
    · simp only [h1, if_false] at h
      simp [derase, h1, ih h]

theorem dlookup_dmerge {V : Type} (a b : Dict V) (k : String) :
    dlookup (dmerge a b) k = if hasKey b k then dlookup b k else dlookup a k := by
  induction a with
  | nil =>
    cases h : dlookup b k <;> simp [dmerge, dlookup, hasKey, h]
  | cons p rest ih =>
    by_cases hb : hasKey b p.1
    · by_cases hk : p.1 = k
      · simp [dmerge, dlookup, hb, hk ▸ hb, ih, hk]
      · simp [dmerge, dlookup, hb, hk, ih]
    · by_cases hk : p.1 = k
      · simp [dmerge, dlookup, hb, hk, hk ▸ hb]
      · simp [dmerge, dlookup, hb, hk, ih]

theorem hasKey_dmerge {V : Type} (a b : Dict V) (k : String) :
    hasKey (dmerge a b) k = (hasKey a k || hasKey b k) := by
  cases hb : hasKey b k with
  | false =>
    have hb' : (dlookup b k).isSome = false := hb
    simp [hasKey, dlookup_dmerge, hb, hb']
  | true =>
    have hb' : (dlookup b k).isSome = true := hb
    simp [hasKey, dlookup_dmerge, hb, hb']

theorem mem_of_dlookup {V : Type} {d : Dict V} {k : String} {v : V}
    (h : dlookup d k = some v) : (k, v) ∈ d := by
  induction d with
  | nil => simp [dlookup] at h
  | cons p rest ih =>
    obtain ⟨a, b⟩ := p
    simp only [dlookup] at h
    by_cases h1 : a = k
    · simp only [h1, if_true, Option.some.injEq] at h
      subst h1; subst h
      exact List.mem_cons_self _ _
    · simp only [h1, if_false] at h
      exact List.mem_cons_of_mem _ (ih h)

theorem dlookup_of_mem_nodup {V : Type} {d : Dict V} {k : String} {v : V}
    (hnd : (d.map Prod.fst).Nodup) (h : (k, v) ∈ d) : dlookup d k = some v := by
  induction d with
  | nil => simp at h
  | cons p rest ih =>
    rw [List.map_cons, List.nodup_cons] at hnd
    rcases List.mem_cons.mp h with h | h
    · rw [← h]; simp [dlookup]
    · have hk : p.1 ≠ k := by
        intro he
        exact hnd.1 (he ▸ List.mem_map.mpr ⟨(k, v), h, rfl⟩)
      simp [dlookup, hk, ih hnd.2 h]

/-! ## The `store_neosr_defaults` decorator (`arch_util.py`, lines 208-258)

The decorator's wrapped constructor `new_init(self, **kwargs)` performs
three observable steps: it validates/trims the caller kwargs against the
fixed `extra_parameters`, assigns `self.hyperparameters`, and finally calls
the original `old_init`.  We embed it as a function from the three
dictionaries to either the raised `ValueError` data or the ordered list of
the two remaining effects. -/

/-- Payload of the `ValueError` raised by `new_init`: the triple
`(k, v, kwargs[k])` interpolated into the message
"Expected hyperparameter ... to be ... but got ...". -/
abbrev OverrideErr (V : Type) := String × V × V

/-- Observable effects of `new_init` after the validation loop: the
assignment `self.hyperparameters = ...` and the delegated call
`old_init(self, **kwargs)`, in program order. -/
inductive Eff (V : Type) where
  | setHyperparameters : Dict V → Eff V
  | callOldInit : Dict V → Eff V
deriving DecidableEq

/-- The validation/trimming loop of `new_init` (lines 244-250):
`for k, v in extra_parameters.items(): if k in kwargs: if kwargs[k] != v:
raise ValueError(...) ; del kwargs[k]`.  Returns the trimmed kwargs or the
`ValueError` payload. -/
def new_init_loop {V : Type} [DecidableEq V] :
    List (String × V) → Dict V → Except (OverrideErr V) (Dict V)
  | [], kwargs => .ok kwargs
  | (k, v) :: rest, kwargs =>
    match dlookup kwargs k with
    | some w => if w = v then new_init_loop rest (derase kwargs k) else .error (k, v, w)
    | none => new_init_loop rest kwargs

/-- The wrapped constructor `new_init` (lines 242-253): runs the
validation loop, then assigns
`self.hyperparameters = \x7b**extra_parameters, **defaults, **kwargs\x7d`
and calls `old_init(self, **kwargs)` with the trimmed kwargs. -/
def new_init {V : Type} [DecidableEq V] (extra defaults kwargs : Dict V) :
    Except (OverrideErr V) (List (Eff V)) :=
  match new_init_loop extra kwargs with
  | .error e => .error e
  | .ok kw =>
      .ok [Eff.setHyperparameters (dmerge (dmerge extra defaults) kw),
           Eff.callOldInit kw]

/-- The cumulative effect of the loop's `del kwargs[k]` statements: every
key of `extra` removed from `kwargs`. -/
def trim_kwargs {V : Type} (extra : List (String × V)) (kwargs : Dict V) : Dict V :=
  extra.foldl (fun kw p => derase kw p.1) kwargs

/-- The caller supplied some fixed key with a value differing from the
fixed value. -/
def hasConflict {V : Type} (extra kwargs : Dict V) : Prop :=
  ∃ p ∈ extra, ∃ w, dlookup kwargs p.1 = some w ∧ w ≠ p.2

theorem new_init_loop_ok_eq_trim {V : Type} [DecidableEq V]
    {l : List (String × V)} {kwargs kw : Dict V}
    (h : new_init_loop l kwargs = .ok kw) : kw = trim_kwargs l kwargs := by
  induction l generalizing kwargs with
  | nil =>
    simp only [new_init_loop, Except.ok.injEq] at h
    simpa [trim_kwargs] using h.symm
  | cons p rest ih =>
    obtain ⟨k, v⟩ := p
    have htr : trim_kwargs ((k, v) :: rest) kwargs = trim_kwargs rest (derase kwargs k) := rfl
    simp only [new_init_loop] at h
    cases hl : dlookup kwargs k with
    | none =>
      simp only [hl] at h
      rw [htr, derase_of_dlookup_none hl]
      exact ih h
    | some w =>
      simp only [hl] at h
      by_cases hw : w = v
      · rw [if_pos hw] at h
        rw [htr]
        exact ih h
      · rw [if_neg hw] at h
        exact absurd h (by simp)

theorem new_init_loop_error_sound {V : Type} [DecidableEq V]
    {l : List (String × V)} {kwargs : Dict V} {k : String} {v w : V}
    (h : new_init_loop l kwargs = .error (k, v, w)) :
    (k, v) ∈ l ∧ dlookup kwargs k = some w ∧ w ≠ v := by
  induction l generalizing kwargs with
  | nil => simp [new_init_loop] at h
  | cons p rest ih =>
    obtain ⟨k₁, v₁⟩ := p
    simp only [new_init_loop] at h
    cases hl : dlookup kwargs k₁ with
    | none =>
      simp only [hl] at h
      obtain ⟨hm, hlk, hne⟩ := ih h
      exact ⟨List.mem_cons_of_mem _ hm, hlk, hne⟩
    | some w₁ =>
      simp only [hl] at h
      by_cases hw : w₁ = v₁
      · rw [if_pos hw] at h
        obtain ⟨hm, hlk, hne⟩ := ih h
        rw [dlookup_derase] at hlk
        by_cases hk : k = k₁
        · rw [if_pos hk] at hlk; exact absurd hlk (by simp)
        · rw [if_neg hk] at hlk
          exact ⟨List.mem_cons_of_mem _ hm, hlk, hne⟩
      · rw [if_neg hw] at h
        simp only [Except.error.injEq, Prod.mk.injEq] at h
        obtain ⟨h1, h2, h3⟩ := h
        subst h1; subst h2; subst h3
        exact ⟨List.mem_cons_self _ _, hl, hw⟩

theorem new_init_loop_conflict_errors {V : Type} [DecidableEq V]
    {l : List (String × V)} {kwargs : Dict V}
    (hnd : (l.map Prod.fst).Nodup) {k : String} {v w : V}
    (hm : (k, v) ∈ l) (hw : dlookup kwargs k = some w) (hne : w ≠ v) :
    ∃ e, new_init_loop l kwargs = .error e := by
  induction l generalizing kwargs with
  | nil => simp at hm
  | cons p rest ih =>
    obtain ⟨k₁, v₁⟩ := p
    rw [List.map_cons, List.nodup_cons] at hnd
    rcases List.mem_cons.mp hm with hh | ht
    · rw [Prod.mk.injEq] at hh
      obtain ⟨hk, hv⟩ := hh
      subst hk; subst hv
      refine ⟨(k, v, w), ?_⟩
      simp [new_init_loop, hw, hne]
    · have hk : k ≠ k₁ := by
        intro he
        exact hnd.1 (he ▸ List.mem_map.mpr ⟨(k, v), ht, rfl⟩)
      simp only [new_init_loop]
      cases hl : dlookup kwargs k₁ with
      | none =>
        simp only [hl]
        exact ih hnd.2 ht hw
      | some w₁ =>
        simp only [hl]
        by_cases hw₁ : w₁ = v₁
        · rw [if_pos hw₁]
          refine ih hnd.2 ht ?_
          rw [dlookup_derase, if_neg hk]
          exact hw
        · exact ⟨(k₁, v₁, w₁), by rw [if_neg hw₁]⟩

theorem new_init_loop_no_conflict_ok {V : Type} [DecidableEq V]
    {l : List (String × V)} {kwargs : Dict V}
    (h : ∀ k v w, (k, v) ∈ l → dlookup kwargs k = some w → w = v) :
    new_init_loop l kwargs = .ok (trim_kwargs l kwargs) := by
  induction l generalizing kwargs with
  | nil => rfl
  | cons p rest ih =>
    obtain ⟨k₁, v₁⟩ := p
    have htr : trim_kwargs ((k₁, v₁) :: rest) kwargs = trim_kwargs rest (derase kwargs k₁) := rfl
    simp only [new_init_loop]
    cases hl : dlookup kwargs k₁ with
    | none =>
      simp only [hl]
      rw [htr, derase_of_dlookup_none hl]
      exact ih fun k v w hm hw => h k v w (List.mem_cons_of_mem _ hm) hw
    | some w₁ =>
      simp only [hl]
      rw [if_pos (h k₁ v₁ w₁ (List.mem_cons_self _ _) hl), htr]
      refine ih fun k v w hm hw => ?_
      rw [dlookup_derase] at hw
      by_cases hk : k = k₁
      · rw [if_pos hk] at hw; exact absurd hw (by simp)
      · rw [if_neg hk] at hw
        exact h k v w (List.mem_cons_of_mem _ hm) hw

theorem dlookup_trim_kwargs {V : Type} (l : List (String × V)) (kwargs : Dict V)
    (k : String) :
    dlookup (trim_kwargs l kwargs) k =
      if k ∈ l.map Prod.fst then none else dlookup kwargs k := by
  induction l generalizing kwargs with
  | nil => simp [trim_kwargs]
  | cons p rest ih =>
    have htr : trim_kwargs (p :: rest) kwargs = trim_kwargs rest (derase kwargs p.1) := rfl
    rw [htr, ih, dlookup_derase]
    by_cases h1 : k ∈ rest.map Prod.fst <;> by_cases h2 : k = p.1 <;>
      simp [h1, h2, eq_comm]

/-- C1: for a class decorated by `store_neosr_defaults` with fixed
`extra_parameters`, a keyword instantiation in which some fixed key is
supplied with a differing value raises the `ValueError` naming a
conflicting key; and a keyword instantiation supplying a fixed key with
the equal value (and no conflicting key at all) succeeds with that key
removed from the kwargs forwarded to the original constructor. -/
theorem store_neosr_defaults_override_check {V : Type} [DecidableEq V]
    (extra defaults kwargs : Dict V) (hnd : (extra.map Prod.fst).Nodup) :
    (hasConflict extra kwargs →
      ∃ k' v' w', new_init extra defaults kwargs = .error (k', v', w') ∧
        dlookup extra k' = some v' ∧ dlookup kwargs k' = some w' ∧ w' ≠ v')
  ∧ (∀ k v, dlookup extra k = some v → dlookup kwargs k = some v →
      ¬hasConflict extra kwargs →
      ∃ kw, new_init extra defaults kwargs =
          .ok [Eff.setHyperparameters (dmerge (dmerge extra defaults) kw),
               Eff.callOldInit kw] ∧
        dlookup kw k = none) := by
  constructor
  · rintro ⟨⟨k, v⟩, hp, w, hw, hne⟩
    obtain ⟨e, he⟩ := new_init_loop_conflict_errors hnd hp hw hne
    obtain ⟨k', v', w'⟩ := e
    obtain ⟨hm', hw', hne'⟩ := new_init_loop_error_sound he
    refine ⟨k', v', w', ?_, dlookup_of_mem_nodup hnd hm', hw', hne'⟩
    simp only [new_init, he]
  · intro k v hek hwk hnc
    have hall : ∀ k₁ v₁ w₁, (k₁, v₁) ∈ extra → dlookup kwargs k₁ = some w₁ → w₁ = v₁ := by
      intro k₁ v₁ w₁ hm hw
      by_contra hne
      exact hnc ⟨(k₁, v₁), hm, w₁, hw, hne⟩
    have hok := new_init_loop_no_conflict_ok hall
    refine ⟨trim_kwargs extra kwargs, ?_, ?_⟩
    · simp only [new_init, hok]
    · rw [dlookup_trim_kwargs, if_pos]
      exact List.mem_map.mpr ⟨(k, v), mem_of_dlookup hek, rfl⟩

/-- Witness for C1 at a concrete decorated class: fixed parameters
`a := 1`, declared default `x := 0`, caller kwargs `a := 1, b := 7`. -/
theorem store_neosr_defaults_override_check_witness :
    (hasConflict [("a", (1 : ℕ))] [("a", 1), ("b", 7)] →
      ∃ k' v' w',
        new_init [("a", (1 : ℕ))] [("x", 0)] [("a", 1), ("b", 7)] = .error (k', v', w') ∧
        dlookup [("a", (1 : ℕ))] k' = some v' ∧
        dlookup [("a", (1 : ℕ)), ("b", 7)] k' = some w' ∧ w' ≠ v')
  ∧ (∀ k v, dlookup [("a", (1 : ℕ))] k = some v →
      dlookup [("a", (1 : ℕ)), ("b", 7)] k = some v →
      ¬hasConflict [("a", (1 : ℕ))] [("a", 1), ("b", 7)] →
      ∃ kw, new_init [("a", (1 : ℕ))] [("x", 0)] [("a", 1), ("b", 7)] =
          .ok [Eff.setHyperparameters (dmerge (dmerge [("a", 1)] [("x", 0)]) kw),
               Eff.callOldInit kw] ∧
        dlookup kw k = none) :=
  store_neosr_defaults_override_check [("a", 1)] [("x", 0)] [("a", 1), ("b", 7)]
    (by decide)

theorem new_init_ok_effs {V : Type} [DecidableEq V]
    {extra defaults kwargs : Dict V} {effs : List (Eff V)}
    (h : new_init extra defaults kwargs = .ok effs) :
    effs = [Eff.setHyperparameters
              (dmerge (dmerge extra defaults) (trim_kwargs extra kwargs)),
            Eff.callOldInit (trim_kwargs extra kwargs)] := by
  simp only [new_init] at h
  cases hok : new_init_loop extra kwargs with
  | error e => simp only [hok] at h; exact absurd h (by simp)
  | ok kw =>
    simp only [hok, Except.ok.injEq] at h
    rw [← h, new_init_loop_ok_eq_trim hok]

/-- C2: on every successful instantiation, the wrapped constructor's
effects are exactly: first the assignment of the hyperparameter record
`\x7b**extra_parameters, **defaults, **kwargs\x7d` (later entries override
earlier ones) to the instance attribute, then the call of the original
constructor with the trimmed caller kwargs. -/
theorem hyperparameters_record_merge_order {V : Type} [DecidableEq V]
    (extra defaults kwargs : Dict V) (effs : List (Eff V))
    (h : new_init extra defaults kwargs = .ok effs) :
    effs = [Eff.setHyperparameters
              (dmerge (dmerge extra defaults) (trim_kwargs extra kwargs)),
            Eff.callOldInit (trim_kwargs extra kwargs)] :=
  new_init_ok_effs h

/-- Witness for C2: fixed parameters `a := 1`, declared default `x := 0`,
caller kwargs `b := 7`. -/
theorem hyperparameters_record_merge_order_witness :
    [Eff.setHyperparameters [("a", (1 : ℕ)), ("x", 0), ("b", 7)],
     Eff.callOldInit [("b", 7)]]
      = [Eff.setHyperparameters
           (dmerge (dmerge [("a", (1 : ℕ))] [("x", 0)])
             (trim_kwargs [("a", 1)] [("b", 7)])),
         Eff.callOldInit (trim_kwargs [("a", (1 : ℕ))] [("b", 7)])] :=
  hyperparameters_record_merge_order [("a", 1)] [("x", 0)] [("b", 7)]
    [Eff.setHyperparameters [("a", 1), ("x", 0), ("b", 7)], Eff.callOldInit [("b", 7)]]
    rfl

theorem hasKey_iff_mem_keys {V : Type} (d : Dict V) (k : String) :
    hasKey d k = true ↔ k ∈ d.map Prod.fst := by
  induction d with
  | nil => simp [hasKey, dlookup]
  | cons p rest ih =>
    rw [List.map_cons, List.mem_cons, ← ih]
    by_cases h : p.1 = k
    · simp [hasKey, dlookup, h]
    · have h' : ¬(k = p.1) := fun he => h he.symm
      simp [hasKey, dlookup, h, h']

/-- The embedding of `inspect.FullArgSpec` for a plain constructor:
`args` lists the declared positional-or-keyword parameter names (`self`
omitted, since it is always bound explicitly and never defaulted),
`defaults` aligns with the last entries of `args` (or is `None`), and
`kwonlydefaults` maps keyword-only parameters to their defaults. -/
structure FullArgSpec (V : Type) where
  args : List String
  defaults : Option (List V)
  kwonlydefaults : Option (Dict V)

/-- `get_arg_defaults` (`arch_util.py`, lines 215-228): starts from
`spec.kwonlydefaults` (when not `None`) and merges in
`dict(zip(spec.args[-len(spec.defaults):], spec.defaults))` (when
`spec.defaults` is not `None`), later entries overriding. -/
def get_arg_defaults {V : Type} (spec : FullArgSpec V) : Dict V :=
  let d : Dict V :=
    match spec.kwonlydefaults with
    | some kd => kd
    | none => []
  match spec.defaults with
  | some ds => dmerge d ((spec.args.drop (spec.args.length - ds.length)).zip ds)
  | none => d

/-- C3 counterexample: for a decorated class whose constructor declares a
default `z := 6` while the fixed extra parameters pin `z := 5`,
instantiation with no kwargs succeeds and the attached record carries
`z = 6` — the declared default, not the fixed-override value, wins the
merge `\x7b**extra, **defaults, **kwargs\x7d`. -/
theorem hyperparameters_fixed_override_cex :
    new_init [("z", (5 : ℕ))] [("z", 6)] [] =
      .ok [Eff.setHyperparameters [("z", 6)], Eff.callOldInit []] ∧
    dlookup [("z", (6 : ℕ))] "z" = some 6 ∧
    dlookup [("z", (5 : ℕ))] "z" = some 5 ∧ (6 : ℕ) ≠ 5 :=
  ⟨rfl, rfl, rfl, by decide⟩

/-- C3 amended: on every successful instantiation the attached record's
key set is exactly (fixed-override keys) ∪ (declared-default keys) ∪
(caller-supplied keys); for a key in the fixed-override set the record's
value is the declared default when the key also appears among the
declared constructor defaults, and the fixed value otherwise (caller
kwargs never override a fixed key, but declared defaults do). -/
theorem hyperparameters_record_invariant_amended {V : Type} [DecidableEq V]
    (extra kwargs : Dict V) (spec : FullArgSpec V) (effs : List (Eff V))
    (h : new_init extra (get_arg_defaults spec) kwargs = .ok effs) :
    Eff.setHyperparameters
        (dmerge (dmerge extra (get_arg_defaults spec)) (trim_kwargs extra kwargs))
      ∈ effs ∧
    (∀ k,
      hasKey (dmerge (dmerge extra (get_arg_defaults spec)) (trim_kwargs extra kwargs)) k
        = (hasKey extra k || hasKey (get_arg_defaults spec) k || hasKey kwargs k)) ∧
    (∀ k v, dlookup extra k = some v →
      dlookup (dmerge (dmerge extra (get_arg_defaults spec)) (trim_kwargs extra kwargs)) k
        = some ((dlookup (get_arg_defaults spec) k).getD v)) := by
  refine ⟨?_, ?_, ?_⟩
  · rw [new_init_ok_effs h]
    exact List.mem_cons_self _ _
  · intro k
    rw [hasKey_dmerge, hasKey_dmerge]
    by_cases hm : k ∈ extra.map Prod.fst
    · have he : hasKey extra k = true := (hasKey_iff_mem_keys _ _).mpr hm
      have ht : hasKey (trim_kwargs extra kwargs) k = false := by
        simp [hasKey, dlookup_trim_kwargs, hm]
      rw [he, ht]
      simp
    · have ht : hasKey (trim_kwargs extra kwargs) k = hasKey kwargs k := by
        simp [hasKey, dlookup_trim_kwargs, hm]
      rw [ht, Bool.or_assoc]
  · intro k v hek
    have hm : k ∈ extra.map Prod.fst :=
      List.mem_map.mpr ⟨(k, v), mem_of_dlookup hek, rfl⟩
    have ht : dlookup (trim_kwargs extra kwargs) k = none := by
      rw [dlookup_trim_kwargs, if_pos hm]
    have htk : hasKey (trim_kwargs extra kwargs) k = false := by simp [hasKey, ht]
    rw [dlookup_dmerge, htk, if_neg (by simp), dlookup_dmerge]
    cases hD : dlookup (get_arg_defaults spec) k with
    | none =>
      have hDk : hasKey (get_arg_defaults spec) k = false := by simp [hasKey, hD]
      rw [hDk, if_neg (by simp), hek]
      rfl
    | some d =>
      have hDk : hasKey (get_arg_defaults spec) k = true := by simp [hasKey, hD]
      rw [hDk, if_pos rfl]
      rfl

/-- Witness for the amended C3: constructor signature `(x=1, z=6)`, fixed
extra parameters `z := 5`, caller kwargs `x := 2`. -/
theorem hyperparameters_record_invariant_amended_witness :
    Eff.setHyperparameters
        (dmerge
          (dmerge [("z", (5 : ℕ))]
            (get_arg_defaults ⟨["x", "z"], some [1, 6], none⟩))
          (trim_kwargs [("z", 5)] [("x", 2)]))
      ∈ [Eff.setHyperparameters [("z", (6 : ℕ)), ("x", 2)], Eff.callOldInit [("x", 2)]] ∧
    (∀ k,
      hasKey
          (dmerge
            (dmerge [("z", (5 : ℕ))]
              (get_arg_defaults ⟨["x", "z"], some [1, 6], none⟩))
            (trim_kwargs [("z", 5)] [("x", 2)])) k
        = (hasKey [("z", (5 : ℕ))] k
            || hasKey (get_arg_defaults ⟨["x", "z"], some [1, 6], none⟩) k
            || hasKey [("x", (2 : ℕ))] k)) ∧
    (∀ k v, dlookup [("z", (5 : ℕ))] k = some v →
      dlookup
          (dmerge
            (dmerge [("z", (5 : ℕ))]
              (get_arg_defaults ⟨["x", "z"], some [1, 6], none⟩))
            (trim_kwargs [("z", 5)] [("x", 2)])) k
        = some ((dlookup (get_arg_defaults ⟨["x", "z"], some [1, 6], none⟩) k).getD v)) :=
  hyperparameters_record_invariant_amended [("z", 5)] [("x", 2)]
    ⟨["x", "z"], some [1, 6], none⟩
    [Eff.setHyperparameters [("z", 6), ("x", 2)], Eff.callOldInit [("x", 2)]] rfl

/-- Modelled from the spec: the call semantics of a "well-formed original
constructor" of a decorated class (the undecorated baseline the decorator
is compared against).  Positional arguments bind to the declared parameter
names in order; each remaining parameter takes its value from the keyword
arguments, else from the declared defaults; the call fails (Python
`TypeError`) when there are more positional arguments than parameters,
when a keyword does not name a remaining parameter (unexpected keyword or
duplicate of a positionally bound one), or when a parameter is left
without a value.  The returned binding is the instance state the original
constructor builds from its arguments. -/
def bindCall {V : Type} (argNames : List String) (defaults : Dict V)
    (pos : List V) (kwargs : Dict V) : Option (Dict V) :=
  if pos.length ≤ argNames.length ∧ ∀ p ∈ kwargs, p.1 ∈ argNames.drop pos.length then
    ((argNames.drop pos.length).mapM fun n =>
        ((dlookup kwargs n).orElse fun _ => dlookup defaults n).map fun v => (n, v)).map
      fun rest => argNames.zip pos ++ rest
  else none

/-- The decorated class's constructor as seen by a caller (`inner`,
`arch_util.py` lines 235-256): the wrapper has signature
`new_init(self, **kwargs)`, so it accepts no positional arguments at all;
otherwise it runs the override-validation loop and then invokes the
original constructor on the trimmed kwargs.  Returns the original
constructor's bound state paired with the attached hyperparameter
record. -/
def decoratedCall {V : Type} [DecidableEq V] (extra : Dict V)
    (argNames : List String) (defaults : Dict V) (pos : List V) (kwargs : Dict V) :
    Option (Dict V × Dict V) :=
  if pos.isEmpty then
    match new_init_loop extra kwargs with
    | .error _ => none
    | .ok kw =>
      match bindCall argNames defaults [] kw with
      | some st => some (st, dmerge (dmerge extra defaults) kw)
      | none => none
  else none

theorem new_init_loop_disjoint {V : Type} [DecidableEq V]
    {l : List (String × V)} {kwargs : Dict V}
    (h : ∀ p ∈ l, dlookup kwargs p.1 = none) :
    new_init_loop l kwargs = .ok kwargs := by
  induction l with
  | nil => rfl
  | cons p rest ih =>
    obtain ⟨k, v⟩ := p
    have hk : dlookup kwargs k = none := h (k, v) (List.mem_cons_self _ _)
    simp only [new_init_loop, hk]
    exact ih fun q hq => h q (List.mem_cons_of_mem _ hq)

/-- C4 counterexample: a constructor with a single defaulted parameter
`x := 1` accepts the positional call with argument `2` (binding `x = 2`),
but after decoration — even with an empty fixed-override set, so that no
caller argument conflicts with a fixed override — the same call fails,
because the wrapper `new_init(self, **kwargs)` accepts keyword arguments
only. -/
theorem decorated_positional_call_cex :
    bindCall ["x"] [("x", (1 : ℕ))] [2] [] = some [("x", 2)] ∧
    decoratedCall ([] : Dict ℕ) ["x"] [("x", 1)] [2] [] = none :=
  ⟨rfl, rfl⟩

/-- C4 amended: for invocations that pass keyword arguments only and
supply no key from the fixed extra set, the decorated constructor succeeds
exactly when the original does, forwards the caller kwargs unchanged,
produces the same bound constructor state, and additionally attaches the
hyperparameter record.  (Positional invocations are rejected by the
decorated class even when the original accepts them, and a caller kwarg
matching a fixed key is withheld from the original constructor.) -/
theorem decorated_call_refines_original {V : Type} [DecidableEq V]
    (extra : Dict V) (argNames : List String) (defaults kwargs : Dict V)
    (hdisj : ∀ p ∈ extra, dlookup kwargs p.1 = none) :
    decoratedCall extra argNames defaults [] kwargs
      = (bindCall argNames defaults [] kwargs).map
          fun st => (st, dmerge (dmerge extra defaults) kwargs) := by
  simp only [decoratedCall, List.isEmpty, if_pos, new_init_loop_disjoint hdisj]
  cases hb : bindCall argNames defaults [] kwargs with
  | none => simp
  | some st => simp

/-- Witness for the amended C4: constructor signature `(x=1)`, fixed extra
parameters `a := 1`, keyword call `x := 2`. -/
theorem decorated_call_refines_original_witness :
    decoratedCall [("a", (1 : ℕ))] ["x"] [("x", 1)] [] [("x", 2)]
      = (bindCall ["x"] [("x", (1 : ℕ))] [] [("x", 2)]).map
          fun st => (st, dmerge (dmerge [("a", 1)] [("x", 1)]) [("x", 2)]) :=
  decorated_call_refines_original [("a", 1)] ["x"] [("x", 1)] [("x", 2)] (by decide)

/-! ## `drop_path` (`arch_util.py`, lines 163-188) -/

/-- A tensor with batch axis 0: a list of batch samples, each sample the
row-major list of its element values across all remaining axes (the exact
inner shape is irrelevant to the specified properties; element values are
exact rationals). -/
abbrev Tensor := List (List ℚ)

/-- `drop_path(x, drop_prob, training, scale_by_keep)`.  The ambient
random source is passed as the oracle `bern`: `bern i` is the
Bernoulli(`keep_prob`) draw that `x.new_empty(shape).bernoulli_(keep_prob)`
would produce for batch sample `i` (`true` = keep, drawn with probability
`keep_prob`), `shape` being `(b, 1, ..., 1)` so that one scalar is drawn
per sample and broadcast across all remaining axes.  When
`keep_prob > 0.0 and scale_by_keep`, `random_tensor` is divided in place
by `keep_prob`; the result is `x * random_tensor`. -/
def drop_path (x : Tensor) (drop_prob : ℚ) (training : Bool)
    (scale_by_keep : Bool) (bern : ℕ → Bool) : Tensor :=
  if drop_prob = 0 ∨ training = false then x
  else
    let keep_prob : ℚ := 1 - drop_prob
    let random_tensor : List ℚ :=
      (List.range x.length).map fun i => if bern i then 1 else 0
    let random_tensor : List ℚ :=
      if 0 < keep_prob ∧ scale_by_keep then random_tensor.map (· / keep_prob)
      else random_tensor
    List.zipWith (fun s r => s.map fun v => v * r) x random_tensor

theorem zipWith_range_map_getElem? {α β : Type} (f : α → ℚ → β) (g : ℕ → ℚ)
    (x : List α) (i : ℕ) :
    (List.zipWith f x ((List.range x.length).map g))[i]? = (x[i]?).map fun s => f s (g i) := by
  induction x generalizing g i with
  | nil => simp
  | cons a rest ih =>
    rw [List.length_cons, List.range_succ_eq_map, List.map_cons, List.map_map,
      List.zipWith_cons_cons]
    cases i with
    | zero => simp
    | succ j =>
      rw [List.getElem?_cons_succ, List.getElem?_cons_succ]
      exact ih (fun n => g (Nat.succ n)) j

/-- C5: whenever `drop_prob == 0.0` or `training` is false, `drop_path`
returns its input unchanged, for every state of the random source (the
early return on line 170-171 consumes no randomness and is exact
identity). -/
theorem drop_path_passthrough (x : Tensor) (drop_prob : ℚ)
    (training scale_by_keep : Bool)
    (h : drop_prob = 0 ∨ training = false) :
    ∀ bern, drop_path x drop_prob training scale_by_keep bern = x := by
  intro bern
  rw [drop_path, if_pos h]

/-- Witness for C5: `drop_prob = 1/2` with `training = false`, the random
oracle dropping everything. -/
theorem drop_path_passthrough_witness :
    drop_path [[(1 : ℚ), 2], [3, 4]] (1 / 2) false true (fun _ => false)
      = [[(1 : ℚ), 2], [3, 4]] :=
  drop_path_passthrough [[(1 : ℚ), 2], [3, 4]] (1 / 2) false true (Or.inr rfl)
    (fun _ => false)

/-- C6: with `0 < drop_prob < 1` and `training` true, `drop_path` keeps
the batch length and multiplies each batch sample `i` by the one
Bernoulli draw `bern i` broadcast over the whole sample: a surviving
sample equals the input sample divided by `keep_prob = 1 - drop_prob`
when `scale_by_keep` is set (unchanged otherwise) and a dropped sample is
all zeros.  The input `x` is a pure argument, so it is not mutated. -/
theorem drop_path_training_mask (x : Tensor) (drop_prob : ℚ)
    (scale_by_keep : Bool) (bern : ℕ → Bool)
    (h0 : 0 < drop_prob) (h1 : drop_prob < 1) :
    (drop_path x drop_prob true scale_by_keep bern).length = x.length ∧
    ∀ i, (drop_path x drop_prob true scale_by_keep bern)[i]? =
      (x[i]?).map fun s : List ℚ => s.map fun v : ℚ =>
        if bern i then (if scale_by_keep then v / (1 - drop_prob) else v) else 0 := by
  have hne : ¬(drop_prob = 0 ∨ (true : Bool) = false) := by
    simp [h0.ne']
  have hkp : 0 < 1 - drop_prob := by linarith
  rw [drop_path, if_neg hne]
  dsimp only
  cases scale_by_keep with
  | true =>
    rw [if_pos ⟨hkp, rfl⟩, List.map_map]
    simp only [Function.comp_def]
    constructor
    · rw [List.length_zipWith, List.length_map, List.length_range, Nat.min_self]
    · intro i
      rw [zipWith_range_map_getElem?
        (fun s r => s.map fun v => v * r)
        (fun n => (if bern n then (1 : ℚ) else 0) / (1 - drop_prob)) x i]
      by_cases hb : bern i = true
      · simp [hb, div_eq_mul_inv]
      · simp [hb]
  | false =>
    rw [if_neg (by simp)]
    constructor
    · rw [List.length_zipWith, List.length_map, List.length_range, Nat.min_self]
    · intro i
      rw [zipWith_range_map_getElem?
        (fun s r => s.map fun v => v * r)
        (fun n => if bern n then (1 : ℚ) else 0) x i]
      by_cases hb : bern i = true
      · simp [hb]
      · simp [hb]

/-- Witness for C6: a two-sample batch with `drop_prob = 1/4`,
`scale_by_keep` on. -/
theorem drop_path_training_mask_witness :
    (drop_path [[(4 : ℚ), 8], [3, 5]] (1 / 4) true true (fun i => i == 0)).length
      = ([[(4 : ℚ), 8], [3, 5]] : Tensor).length ∧
    ∀ i, (drop_path [[(4 : ℚ), 8], [3, 5]] (1 / 4) true true (fun i => i == 0))[i]? =
      (([[(4 : ℚ), 8], [3, 5]] : Tensor)[i]?).map fun s : List ℚ => s.map fun v : ℚ =>
        if i == 0 then (if (true : Bool) then v / (1 - 1 / 4) else v) else 0 :=
  drop_path_training_mask [[(4 : ℚ), 8], [3, 5]] (1 / 4) true (fun i => i == 0)
    (by norm_num) (by norm_num)

/-! ## `_no_grad_trunc_normal_` (`arch_util.py`, lines 126-160) -/

/-- `norm_cdf(x) = (1.0 + math.erf(x / math.sqrt(2.0))) / 2.0`
(lines 128-130).  The transcendental `math.erf` and the constant
`math.sqrt(2.0)` are parameters of the embedding. -/
def norm_cdf (erf : ℚ → ℚ) (sqrt2 : ℚ) (x : ℚ) : ℚ :=
  (1 + erf (x / sqrt2)) / 2

/-- The in-place fill performed by `_no_grad_trunc_normal_(tensor, mean,
std, a, b)` (lines 139-160) on a tensor of `n` elements, elementwise:
compute `low = norm_cdf((a - mean) / std)`, `up = norm_cdf((b - mean) /
std)`; `tensor.uniform_(2 * low - 1, 2 * up - 1)` draws element `i` at
parameter `u i` of that interval (`u i ∈ [0, 1]`); then `erfinv_()`,
`mul_(std * math.sqrt(2.0))`, `add_(mean)` and finally
`clamp_(min=a, max=b)`, which computes `min(max(value, a), b)`.  The
transcendentals `erf`/`erfinv` and the constant `sqrt2` are parameters;
the guarantee proved below holds for every value of them, including any
floating-point overshoot of the true inverse error function. -/
def no_grad_trunc_normal (erf erfinv : ℚ → ℚ) (sqrt2 : ℚ) (u : ℕ → ℚ)
    (n : ℕ) (mean std a b : ℚ) : List ℚ :=
  let low := norm_cdf erf sqrt2 ((a - mean) / std)
  let up := norm_cdf erf sqrt2 ((b - mean) / std)
  (List.range n).map fun i =>
    min (max (erfinv ((2 * low - 1) + u i * ((2 * up - 1) - (2 * low - 1)))
          * (std * sqrt2) + mean) a) b

/-- C7: for every tensor size, mean, `std > 0` and bounds `a < b`, every
element written by the truncated-normal fill lies in the closed interval
`[a, b]`: the final clamp guarantees the bound whatever values the
uniform draw and the (possibly overshooting) inverse-CDF transform
produce. -/
theorem trunc_normal_range (erf erfinv : ℚ → ℚ) (sqrt2 : ℚ) (u : ℕ → ℚ)
    (n : ℕ) (mean std a b : ℚ) (hstd : 0 < std) (hab : a < b) :
    ∀ y ∈ no_grad_trunc_normal erf erfinv sqrt2 u n mean std a b,
      a ≤ y ∧ y ≤ b := by
  intro y hy
  simp only [no_grad_trunc_normal, List.mem_map] at hy
  obtain ⟨i, _, rfl⟩ := hy
  exact ⟨le_min (le_max_right _ _) hab.le, min_le_right _ _⟩

/-- Witness for C7: a two-element fill with `mean = 0`, `std = 1`,
bounds `[-1, 1]`, and the transcendental slots instantiated
concretely. -/
theorem trunc_normal_range_witness :
    (0 : ℚ) ∈ no_grad_trunc_normal (fun x => x) (fun x => x) (3 / 2) (fun _ => 1 / 2)
        2 0 1 (-1) 1 ∧ (-1 : ℚ) ≤ 0 ∧ (0 : ℚ) ≤ 1 :=
  have hmem : (0 : ℚ) ∈ no_grad_trunc_normal (fun x => x) (fun x => x) (3 / 2)
      (fun _ => 1 / 2) 2 0 1 (-1) 1 := by
    simp only [no_grad_trunc_normal, norm_cdf, List.mem_map, List.mem_range]
    refine ⟨0, by norm_num, ?_⟩
    norm_num
  ⟨hmem,
   trunc_normal_range (fun x => x) (fun x => x) (3 / 2) (fun _ => 1 / 2) 2 0 1 (-1) 1
     (by norm_num) (by norm_num) 0 hmem⟩

/-! ## `Upsample.__init__` (`arch_util.py`, lines 82-103) -/

/-- The layers `Upsample.__init__` appends to the module list:
`nn.Conv2d(in_ch, out_ch, 3, 1, 1)` and `nn.PixelShuffle(r)`
(construction only — their forward semantics belong to the tensor
runtime). -/
inductive Layer where
  | conv2d : ℕ → ℕ → Layer
  | pixelShuffleLayer : ℕ → Layer
deriving DecidableEq

theorem land_eq_zero_iff_testBit (a b : ℕ) :
    a &&& b = 0 ↔ ∀ j, (a.testBit j && b.testBit j) = false := by
  constructor
  · intro h j
    rw [← Nat.testBit_land, h, Nat.zero_testBit]
  · intro h
    refine Nat.eq_of_testBit_eq fun j => ?_
    rw [Nat.testBit_land, h j, Nat.zero_testBit]

theorem land_pred_eq_zero_iff (n : ℕ) (hn : 0 < n) :
    n &&& (n - 1) = 0 ↔ ∃ k, n = 2 ^ k := by
  induction n using Nat.strong_induction_on with
  | _ n ih =>
    rcases Nat.even_or_odd n with he | ho
    · obtain ⟨m, hm⟩ := he
      have hm2 : n = 2 * m := by omega
      have hmpos : 0 < m := by omega
      have hdiv : n / 2 = m := by omega
      have hdiv' : (n - 1) / 2 = m - 1 := by omega
      have hbit0 : n.testBit 0 = false := by
        rw [Nat.testBit_zero]
        simp only [decide_eq_false_iff_not]
        omega
      have hiff : (n &&& (n - 1) = 0) ↔ (m &&& (m - 1) = 0) := by
        rw [land_eq_zero_iff_testBit, land_eq_zero_iff_testBit]
        constructor
        · intro h j
          have hj := h (j + 1)
          rwa [Nat.testBit_succ, Nat.testBit_succ, hdiv, hdiv'] at hj
        · intro h j
          cases j with
          | zero => rw [hbit0]; simp
          | succ j =>
            rw [Nat.testBit_succ, Nat.testBit_succ, hdiv, hdiv']
            exact h j
      rw [hiff, ih m (by omega) hmpos]
      constructor
      · rintro ⟨k, hk⟩
        exact ⟨k + 1, by rw [pow_succ]; omega⟩
      · rintro ⟨k, hk⟩
        cases k with
        | zero => rw [pow_zero] at hk; omega
        | succ k =>
          refine ⟨k, ?_⟩
          rw [pow_succ] at hk
          omega
    · obtain ⟨m, hm⟩ := ho
      by_cases hm0 : m = 0
      · subst hm0
        have h1 : n = 1 := by omega
        subst h1
        constructor
        · intro _; exact ⟨0, rfl⟩
        · intro _; decide
      · obtain ⟨j, hj⟩ := Nat.ne_zero_implies_bit_true hm0
        have hdiv : n / 2 = m := by omega
        have hdiv' : (n - 1) / 2 = m := by omega
        constructor
        · intro h
          exfalso
          have hb := (land_eq_zero_iff_testBit n (n - 1)).mp h (j + 1)
          rw [Nat.testBit_succ, Nat.testBit_succ, hdiv, hdiv', hj] at hb
          simp at hb
        · rintro ⟨k, hk⟩
          exfalso
          cases k with
          | zero => rw [pow_zero] at hk; omega
          | succ k => rw [pow_succ] at hk; omega

/-- `Upsample.__init__(scale, num_feat)` (lines 90-103): when the Python
test `(scale & (scale - 1)) == 0` holds, the power-of-two branch appends
`int(math.log2(scale))` stages of (`Conv2d(num_feat, 4*num_feat, 3, 1,
1)`, `PixelShuffle(2)`) — except that for `scale = 0` (which also passes
the test, as `0 & -1 == 0`) the call `math.log2(0)` itself raises a math
domain `ValueError`; when `scale == 3`, a single
(`Conv2d(num_feat, 9*num_feat, 3, 1, 1)`, `PixelShuffle(3)`) stage is
built; any other scale raises the descriptive `ValueError`. -/
def Upsample_init (scale num_feat : ℕ) : Except String (List Layer) :=
  if scale &&& (scale - 1) = 0 then
    if scale = 0 then .error "math domain error"
    else
      .ok (List.flatten (List.replicate (Nat.log2 scale)
        [Layer.conv2d num_feat (4 * num_feat), Layer.pixelShuffleLayer 2]))
  else if scale = 3 then
    .ok [Layer.conv2d num_feat (9 * num_feat), Layer.pixelShuffleLayer 3]
  else .error "scale is not supported. Supported scales: 2^n and 3."

/-- C8 counterexample: `scale = 1` is not in `\x7b2^n | n ≥ 1\x7d ∪ \x7b3\x7d`,
yet `Upsample(1, 64)` is accepted — `1 & 0 == 0` passes the power-of-two
test and `int(math.log2(1)) = 0` stages are built, so construction
succeeds with an empty module list instead of raising. -/
theorem upsample_scale_one_cex :
    Upsample_init 1 64 = .ok [] ∧ (∀ k, 1 ≤ k → (1 : ℕ) ≠ 2 ^ k) ∧ (1 : ℕ) ≠ 3 := by
  refine ⟨by simp [Upsample_init, Nat.log2], ?_, by decide⟩
  intro k hk h1
  have := Nat.one_lt_two_pow_iff.mpr (by omega : k ≠ 0)
  omega

/-- C8 amended: `Upsample(scale, num_feat)` builds a module exactly when
`scale ∈ \x7b2^n | n ≥ 0\x7d ∪ \x7b3\x7d` — the code also accepts
`scale = 1` (an empty stage list); every other natural scale raises
(`scale = 0` with a math-domain error from `log2`, the rest with the
descriptive unsupported-scale error). -/
theorem upsample_init_ok_iff (scale num_feat : ℕ) :
    (∃ m, Upsample_init scale num_feat = .ok m)
      ↔ ((∃ k, scale = 2 ^ k) ∨ scale = 3) := by
  by_cases h0 : scale = 0
  · subst h0
    constructor
    · rintro ⟨m, hm⟩
      rw [show Upsample_init 0 num_feat = .error "math domain error" from rfl] at hm
      exact absurd hm (by simp)
    · rintro (⟨k, hk⟩ | h3)
      · have := pow_pos (show (0 : ℕ) < 2 by norm_num) k
        omega
      · exact absurd h3 (by decide)
  · have hpos : 0 < scale := Nat.pos_of_ne_zero h0
    by_cases hland : scale &&& (scale - 1) = 0
    · have hk := (land_pred_eq_zero_iff scale hpos).mp hland
      constructor
      · intro _
        exact Or.inl hk
      · intro _
        exact ⟨List.flatten (List.replicate (Nat.log2 scale)
            [Layer.conv2d num_feat (4 * num_feat), Layer.pixelShuffleLayer 2]),
          by rw [Upsample_init, if_pos hland, if_neg h0]⟩
    · have hnp : ¬∃ k, scale = 2 ^ k :=
        fun hk => hland ((land_pred_eq_zero_iff scale hpos).mpr hk)
      by_cases h3 : scale = 3
      · constructor
        · intro _
          exact Or.inr h3
        · intro _
          exact ⟨[Layer.conv2d num_feat (9 * num_feat), Layer.pixelShuffleLayer 3],
            by rw [Upsample_init, if_neg hland, if_pos h3]⟩
      · constructor
        · rintro ⟨m, hm⟩
          rw [Upsample_init, if_neg hland, if_neg h3] at hm
          exact absurd hm (by simp)
        · rintro (hk | hh)
          · exact absurd hk hnp
          · exact absurd hh h3

/-! ## `pixel_unshuffle` (`arch_util.py`, lines 107-123) -/

/-- A 4-dimensional tensor of shape `(b, c, hh, hw)`: the dimensions plus
an element function over indices.  Values at out-of-range indices are
irrelevant; tensors are compared with `Tensor4.EqOn` on in-range
indices. -/
structure Tensor4 where
  b : ℕ
  c : ℕ
  hh : ℕ
  hw : ℕ
  data : ℕ → ℕ → ℕ → ℕ → ℚ

/-- A 6-dimensional tensor, for the intermediate
`x.view(b, c, h, scale, w, scale)` and its permutation. -/
structure Tensor6 where
  d0 : ℕ
  d1 : ℕ
  d2 : ℕ
  d3 : ℕ
  d4 : ℕ
  d5 : ℕ
  data : ℕ → ℕ → ℕ → ℕ → ℕ → ℕ → ℚ

/-- `x.view(b, c, h, scale, w, scale)` (line 122) of the contiguous
row-major tensor `x` of shape `(b, c, h*scale, w*scale)`: the flat
offset of `(i, j, p, u, q, v)` in the viewed shape equals the flat offset
of `(i, j, p*scale + u, q*scale + v)` in the original shape, so the
viewed element function reads the original at those indices.  (The view
is taken only after the divisibility assert, so `hh = (hh/scale)*scale`
and `hw = (hw/scale)*scale`.) -/
def view6 (x : Tensor4) (scale : ℕ) : Tensor6 :=
  { d0 := x.b, d1 := x.c, d2 := x.hh / scale, d3 := scale,
    d4 := x.hw / scale, d5 := scale,
    data := fun i j p u q v => x.data i j (p * scale + u) (q * scale + v) }

/-- `.permute(0, 1, 3, 5, 2, 4)` (line 123): dimension `k` of the result
is dimension `σ(k)` of the input, and the element at result multi-index
`(i, j, u, v, p, q)` is the input element at `(i, j, p, u, q, v)`. -/
def permute013524 (y : Tensor6) : Tensor6 :=
  { d0 := y.d0, d1 := y.d1, d2 := y.d3, d3 := y.d5, d4 := y.d2, d5 := y.d4,
    data := fun i j u v p q => y.data i j p u q v }

/-- `.reshape(b, out_channel, h, w)` (line 123) of the permuted tensor of
shape `(b, c, scale, scale, h, w)`: `reshape` materialises the
non-contiguous permuted tensor in row-major order, so the merged channel
index `j` decomposes over the three merged dimensions `(d1, d2, d3)` as
`j₁ = j / (d2*d3)`, `j₂ = j / d3 % d2`, `j₃ = j % d3`. -/
def reshapeMergeChannels (y : Tensor6) : Tensor4 :=
  { b := y.d0, c := y.d1 * y.d2 * y.d3, hh := y.d4, hw := y.d5,
    data := fun i j p q =>
      y.data i (j / (y.d2 * y.d3)) (j / y.d3 % y.d2) (j % y.d3) p q }

/-- `pixel_unshuffle(x, scale)` (lines 107-123): reads the shape
`(b, c, hh, hw)`, asserts `hh % scale == 0 and hw % scale == 0` (an
`AssertionError` before any rearrangement otherwise), and returns
`x.view(b, c, h, scale, w, scale).permute(0, 1, 3, 5, 2, 4).reshape(b,
c * scale**2, h, w)`. -/
def pixel_unshuffle (x : Tensor4) (scale : ℕ) : Except String Tensor4 :=
  if x.hh % scale = 0 ∧ x.hw % scale = 0 then
    .ok (reshapeMergeChannels (permute013524 (view6 x scale)))
  else .error "AssertionError"

/-- Modelled from the spec: the inverse pixel-shuffle (the tensor
runtime's `nn.PixelShuffle(scale)`; per the glossary a lossless,
parameter-free rearrangement trading channel depth for spatial
resolution).  It maps shape `(b, c*scale², h, w)` to
`(b, c, h*scale, w*scale)`, the output element at `(i, j, p, q)` reading
the input at
`(i, (j*scale + p % scale)*scale + q % scale, p / scale, q / scale)`. -/
def pixel_shuffle (x : Tensor4) (scale : ℕ) : Tensor4 :=
  { b := x.b, c := x.c / (scale * scale), hh := x.hh * scale, hw := x.hw * scale,
    data := fun i j p q =>
      x.data i ((j * scale + p % scale) * scale + q % scale) (p / scale) (q / scale) }

/-- Equality of 4-dimensional tensors: same shape and same elements at
every in-range index. -/
def Tensor4.EqOn (t u : Tensor4) : Prop :=
  t.b = u.b ∧ t.c = u.c ∧ t.hh = u.hh ∧ t.hw = u.hw ∧
  ∀ i < u.b, ∀ j < u.c, ∀ p < u.hh, ∀ q < u.hw,
    t.data i j p q = u.data i j p q

/-- C9: `pixel_unshuffle` raises the assert (reported, before any
rearrangement takes place) whenever either spatial dimension of the
4-dimensional input is not divisible by `scale`. -/
theorem pixel_unshuffle_assert (x : Tensor4) (scale : ℕ)
    (h : ¬(x.hh % scale = 0 ∧ x.hw % scale = 0)) :
    pixel_unshuffle x scale = .error "AssertionError" := by
  rw [pixel_unshuffle, if_neg h]

/-- Tensor of shape `(1, 1, 3, 2)`: its first spatial dimension is not
divisible by 2. -/
def sampleBadT4 : Tensor4 := ⟨1, 1, 3, 2, fun _ _ _ _ => 0⟩

/-- Witness for C9: unshuffling a `(1, 1, 3, 2)` tensor by 2 fails. -/
theorem pixel_unshuffle_assert_witness :
    pixel_unshuffle sampleBadT4 2 = .error "AssertionError" :=
  pixel_unshuffle_assert sampleBadT4 2 (by decide)

/-- C10: on a 4-dimensional tensor of shape `(b, c, h*scale, w*scale)`
with positive `scale`, `pixel_unshuffle` succeeds and returns the tensor
of shape `(b, c*scale², h, w)` obtained by the
view/permute/reshape pipeline, and applying the inverse pixel-shuffle
with the same scale reconstructs the input exactly, elementwise — a
lossless round trip (in particular bit-exact for integer-valued
inputs). -/
theorem pixel_unshuffle_roundtrip (x : Tensor4) (scale h w : ℕ)
    (hs : 0 < scale) (hhh : x.hh = h * scale) (hhw : x.hw = w * scale) :
    pixel_unshuffle x scale
      = .ok (reshapeMergeChannels (permute013524 (view6 x scale))) ∧
    (reshapeMergeChannels (permute013524 (view6 x scale))).b = x.b ∧
    (reshapeMergeChannels (permute013524 (view6 x scale))).c = x.c * scale ^ 2 ∧
    (reshapeMergeChannels (permute013524 (view6 x scale))).hh = h ∧
    (reshapeMergeChannels (permute013524 (view6 x scale))).hw = w ∧
    Tensor4.EqOn
      (pixel_shuffle (reshapeMergeChannels (permute013524 (view6 x scale))) scale)
      x := by
  have hs2 : 0 < scale * scale := Nat.mul_pos hs hs
  refine ⟨?_, rfl, ?_, ?_, ?_, ?_, ?_, ?_, ?_, ?_⟩
  · rw [pixel_unshuffle,
      if_pos ⟨by rw [hhh]; exact Nat.mul_mod_left h scale,
              by rw [hhw]; exact Nat.mul_mod_left w scale⟩]
  · show x.c * scale * scale = x.c * scale ^ 2
    rw [pow_two, mul_assoc]
  · show x.hh / scale = h
    rw [hhh]
    exact Nat.mul_div_cancel h hs
  · show x.hw / scale = w
    rw [hhw]
    exact Nat.mul_div_cancel w hs
  · rfl
  · show x.c * scale * scale / (scale * scale) = x.c
    rw [mul_assoc]
    exact Nat.mul_div_cancel x.c hs2
  · show x.hh / scale * scale = x.hh
    rw [hhh, Nat.mul_div_cancel h hs]
  · show x.hw / scale * scale = x.hw
    rw [hhw, Nat.mul_div_cancel w hs]
  · intro i hi j hj p hp q hq
    have hr : p % scale < scale := Nat.mod_lt _ hs
    have ht : q % scale < scale := Nat.mod_lt _ hs
    have hlt : p % scale * scale + q % scale < scale * scale := by
      have hstep : (p % scale + 1) * scale ≤ scale * scale :=
        Nat.mul_le_mul_right scale hr
      rw [Nat.add_mul, one_mul] at hstep
      omega
    have hJ : (j * scale + p % scale) * scale + q % scale
        = scale * scale * j + (p % scale * scale + q % scale) := by ring
    have hJ2 : (j * scale + p % scale) * scale + q % scale
        = scale * (j * scale + p % scale) + q % scale := by ring
    have h1 : ((j * scale + p % scale) * scale + q % scale) / (scale * scale) = j := by
      rw [hJ, Nat.mul_add_div hs2, Nat.div_eq_of_lt hlt]
      rfl
    have h2 : ((j * scale + p % scale) * scale + q % scale) / scale
        = j * scale + p % scale := by
      rw [hJ2, Nat.mul_add_div hs, Nat.div_eq_of_lt ht]
      rfl
    have h2' : (j * scale + p % scale) % scale = p % scale := by
      rw [mul_comm j scale, Nat.mul_add_mod]
      exact Nat.mod_eq_of_lt hr
    have h3 : ((j * scale + p % scale) * scale + q % scale) % scale = q % scale := by
      rw [hJ2, Nat.mul_add_mod]
      exact Nat.mod_eq_of_lt ht
    have hp4 : p / scale * scale + p % scale = p := by
      rw [mul_comm]
      exact Nat.div_add_mod p scale
    have hq4 : q / scale * scale + q % scale = q := by
      rw [mul_comm]
      exact Nat.div_add_mod q scale
    show x.data i (((j * scale + p % scale) * scale + q % scale) / (scale * scale))
        (p / scale * scale
          + ((j * scale + p % scale) * scale + q % scale) / scale % scale)
        (q / scale * scale + ((j * scale + p % scale) * scale + q % scale) % scale)
      = x.data i j p q
    rw [h1, h2, h2', h3, hp4, hq4]

/-- Tensor of shape `(1, 1, 2, 2)` holding distinct values at the four
spatial positions. -/
def sampleT4 : Tensor4 := ⟨1, 1, 2, 2, fun _ _ p q => (2 * p + q : ℚ)⟩

/-- Witness for C10: round trip on the `(1, 1, 2, 2)` tensor with
`scale = 2`. -/
theorem pixel_unshuffle_roundtrip_witness :
    pixel_unshuffle sampleT4 2
      = .ok (reshapeMergeChannels (permute013524 (view6 sampleT4 2))) ∧
    (reshapeMergeChannels (permute013524 (view6 sampleT4 2))).b = sampleT4.b ∧
    (reshapeMergeChannels (permute013524 (view6 sampleT4 2))).c = sampleT4.c * 2 ^ 2 ∧
    (reshapeMergeChannels (permute013524 (view6 sampleT4 2))).hh = 1 ∧
    (reshapeMergeChannels (permute013524 (view6 sampleT4 2))).hw = 1 ∧
    Tensor4.EqOn
      (pixel_shuffle (reshapeMergeChannels (permute013524 (view6 sampleT4 2))) 2)
      sampleT4 :=
  pixel_unshuffle_roundtrip sampleT4 2 1 1 (by decide) rfl rfl
